import Mathlib

/-!
# Verification of the jspaint shape/selection/transform engine

A shallow embedding, in Lean 4, of the core of the `jspaint` repository:
the pure geometry/color kernel (`src/pure.js`), the shape model
(`src/Shapes.js` and its more advanced unnamed variants), and the
tool/selection state machine (`src/ActionTools.js`, `src/ActionKeys.js`).

Conventions of the embedding:
* JavaScript numbers are modelled by exact rationals (`ℚ`).  Arithmetic in
  the source that is exact on rationals (`+ - * /`, `Math.min/max/abs`,
  comparisons, the `%` remainder) is translated directly.
* The transcendental operations `Math.sqrt`, `Math.sin`, `Math.cos`, the
  constant `Math.PI`, and the float-rounding `Math.round` are not
  rational-valued; they are abstracted as explicit function parameters
  (`jsSqrt`, `jsSin`, `jsCos`, `jsModTau`, `jsRound`).  Every theorem below
  is universally quantified over these parameters, so it holds in
  particular for the real interpretations.
* Mutation of JavaScript objects is modelled by explicit state passing:
  each method becomes a function from the object value to the updated
  object value, and the event handlers become transition functions on a
  `St` record mirroring the global state (`AT`, `SelectedShapes.list`,
  `drawings`, the ghost layer).
* JavaScript object identity (used by `Array.includes` and `new Set` on
  shape objects) is modelled by a `ref : Nat` field holding the object's
  allocation address; distinct live objects carry distinct `ref`s.
-/

namespace JsPaint

/-- A 2-D point `{x, y}` (class `Point` of Shapes.js). -/
structure Pt where
  x : ℚ
  y : ℚ
deriving DecidableEq, Repr

/-- Vector addition (`Vector.add` of Shapes.js). -/
def Pt.add (u v : Pt) : Pt := ⟨u.x + v.x, u.y + v.y⟩

/-- Vector subtraction (`Vector.sub` of Shapes.js). -/
def Pt.sub (u v : Pt) : Pt := ⟨u.x - v.x, u.y - v.y⟩

/-- Squared Euclidean norm.  `Vector.length` of Shapes.js is
`Math.sqrt(x**2 + y**2)`; the square is kept separate so that the
abstract square root `jsSqrt` can be applied to it at use sites. -/
def Pt.normSq (u : Pt) : ℚ := u.x ^ 2 + u.y ^ 2

/-! ## pure.js: color conversions -/

/-- JavaScript truncation toward zero (the implicit `ToInteger` of the
`%` operator on numbers). -/
def jsTrunc (q : ℚ) : ℤ := if 0 ≤ q then ⌊q⌋ else ⌈q⌉

/-- The JavaScript remainder operator `a % b` on numbers:
`a - b * trunc(a / b)`. -/
def jsRem (a b : ℚ) : ℚ := a - b * jsTrunc (a / b)

/-- An rgb triple (components in `[0,255]` at call sites). -/
structure RGB where
  r : ℚ
  g : ℚ
  b : ℚ
deriving DecidableEq, Repr

/-- An hsv triple. -/
structure HSV where
  h : ℚ
  s : ℚ
  v : ℚ
deriving DecidableEq, Repr

/-- The body of `rgb2hsv` of pure.js after the initial division of each
channel by 255 (the source reassigns `r = r/255` etc. first):
hue/saturation/value by case analysis on which channel is the minimum. -/
def hsvOfUnit (r g b : ℚ) : HSV :=
  let minRGB := min r (min g b)
  let maxRGB := max r (max g b)
  if minRGB = maxRGB then ⟨0, 0, maxRGB⟩
  else
    let d := if r = minRGB then g - b else if b = minRGB then r - g else b - r
    let hbase : ℚ := if r = minRGB then 3 else if b = minRGB then 1 else 5
    ⟨60 * (hbase - d / (maxRGB - minRGB)), (maxRGB - minRGB) / maxRGB, maxRGB⟩

/-- `rgb2hsv` of pure.js. -/
def rgb2hsv (c : RGB) : HSV := hsvOfUnit (c.r / 255) (c.g / 255) (c.b / 255)

/-- The channel helper `f` inside `hsv2rgb` of pure.js:
`f(n) = v - v*s*max(min(k, 4-k, 1), 0)` with `k = (n + h/60) % 6`. -/
def hsvChan (c : HSV) (n : ℚ) : ℚ :=
  let k := jsRem (n + c.h / 60) 6
  c.v - c.v * c.s * max (min k (min (4 - k) 1)) 0

/-- `hsv2rgb` of pure.js. -/
def hsv2rgb (c : HSV) : RGB :=
  ⟨255 * hsvChan c 5, 255 * hsvChan c 3, 255 * hsvChan c 1⟩

/-- `contrast` of pure.js at the color level: rotate the hue by 180
degrees (`(h + 180) % 360`) and pair the converted rgb with the fixed
0.5 alpha.  (The source additionally parses the input from a hex string
and formats the result as an `rgba(...)` css string; the numeric content
is modelled here.) -/
def contrastOf (c : RGB) : RGB × ℚ :=
  let h := rgb2hsv c
  (hsv2rgb ⟨jsRem (h.h + 180) 360, h.s, h.v⟩, 1 / 2)

/-! ## pure.js: geometry kernel -/

/-- `points2xyList` of pure.js: flatten `[p1, p2, ...]` to
`[x1, y1, x2, y2, ...]`. -/
def points2xyList : List Pt → List ℚ
  | [] => []
  | p :: rest => p.x :: p.y :: points2xyList rest

/-- Group a flat coordinate list `[x1, y1, x2, y2, ...]` into points; the
inverse of `points2xyList` on even-length lists (the index arithmetic of
the source loops reads flat lists pairwise exactly like this). -/
def toPairs : List ℚ → List Pt
  | x :: y :: rest => ⟨x, y⟩ :: toPairs rest
  | _ => []

/-- The cross-product value inside `orient` of pure.js (line 364). -/
def orientVal (p q r : Pt) : ℚ :=
  (q.y - p.y) * (r.x - q.x) - (q.x - p.x) * (r.y - q.y)

/-- `orient` of pure.js: 0 = collinear, 1 = right turn, 2 = left turn. -/
def orient (p q r : Pt) : ℕ :=
  if orientVal p q r = 0 then 0 else if 0 < orientVal p q r then 1 else 2

/-- The default used for out-of-range list reads (never reached on the
index ranges the source uses). -/
def pt0 : Pt := ⟨0, 0⟩

/-- The `reduce` in `jarvis` that picks the index of the leftmost point
(keeping the current index on strict `<`, else taking the new one). -/
def leftMostIdx (points : List Pt) : ℕ :=
  (List.range points.length).foldl
    (fun a i => if (points.getD a pt0).x < (points.getD i pt0).x then a else i) 0

/-- One pass of the inner `for` loop of `jarvis`: starting from the
candidate `(p+1) % n`, replace the candidate by `i` whenever the turn
`orient(points[p], points[i], points[q])` is counter-clockwise. -/
def jarvisScan (points : List Pt) (p : ℕ) : ℕ :=
  (List.range points.length).foldl
    (fun q i =>
      if orient (points.getD p pt0) (points.getD i pt0) (points.getD q pt0) = 2
      then i else q)
    ((p + 1) % points.length)

/-- The `do … while (p !== leftMost)` loop of `jarvis`, with an explicit
fuel counting the remaining permitted iterations; `none` means the loop
did not return to the starting point within the budget. -/
def jarvisLoop (points : List Pt) (leftMost : ℕ) :
    ℕ → ℕ → List Pt → Option (List Pt)
  | 0, _, _ => none
  | fuel + 1, p, hull =>
    let hull' := hull ++ [points.getD p pt0]
    let q := jarvisScan points p
    if q = leftMost then some hull'
    else jarvisLoop points leftMost fuel q hull'

/-- `jarvis` of pure.js, run with a fuel of `points.length` loop
iterations: a `some` result states that the do-while loop terminates
within that many steps. -/
def jarvis (points : List Pt) : Option (List Pt) :=
  jarvisLoop points (leftMostIdx points) points.length (leftMostIdx points) []

/-- Every ordered triple drawn from the list is collinear (the orientation
cross-product vanishes). -/
def AllCollinear (points : List Pt) : Prop :=
  ∀ p ∈ points, ∀ q ∈ points, ∀ r ∈ points, orientVal p q r = 0

instance (points : List Pt) : Decidable (AllCollinear points) := by
  unfold AllCollinear; infer_instance

theorem orientVal_left (p r : Pt) : orientVal p p r = 0 := by
  unfold orientVal; ring

theorem orientVal_right (p q : Pt) : orientVal p q q = 0 := by
  unfold orientVal; ring

theorem orientVal_outer (p q : Pt) : orientVal p q p = 0 := by
  unfold orientVal; ring

/-- Any list of at most two points is all-collinear: every triple drawn
from it repeats a value. -/
theorem allCollinear_of_le_two {points : List Pt} (h : points.length ≤ 2) :
    AllCollinear points := by
  match points, h with
  | [], _ => intro p hp; exact absurd hp (List.not_mem_nil p)
  | [a], _ =>
    intro p hp q hq r hr
    rw [List.mem_singleton] at hp hq hr
    subst hp; subst hq; subst hr
    exact orientVal_left _ _
  | [a, b], _ =>
    intro p hp q hq r hr
    simp only [List.mem_cons, List.mem_singleton, List.not_mem_nil, or_false] at hp hq hr
    rcases hp with rfl | rfl <;> rcases hq with rfl | rfl <;> rcases hr with rfl | rfl <;>
      first
        | exact orientVal_left _ _
        | exact orientVal_right _ _
        | exact orientVal_outer _ _

theorem getD_mem_of_lt {l : List Pt} {n : ℕ} (h : n < l.length) (d : Pt) :
    l.getD n d ∈ l := by
  rw [List.getD_eq_getElem l d h]
  exact List.getElem_mem h

/-- With an all-collinear point set the inner scan never finds a
counter-clockwise turn, so the candidate stays `(p+1) % n`. -/
theorem jarvisScan_collinear {points : List Pt} (hcol : AllCollinear points)
    {p : ℕ} (hp : p < points.length) :
    jarvisScan points p = (p + 1) % points.length := by
  unfold jarvisScan
  have hmod : (p + 1) % points.length < points.length := Nat.mod_lt _ (by omega)
  suffices h : ∀ (L : List ℕ) (q0 : ℕ), (∀ i ∈ L, i < points.length) →
      q0 < points.length →
      L.foldl (fun q i =>
        if orient (points.getD p pt0) (points.getD i pt0) (points.getD q pt0) = 2
        then i else q) q0 = q0 by
    exact h _ _ (fun i hi => List.mem_range.mp hi) hmod
  intro L
  induction L with
  | nil => intro q0 _ _; rfl
  | cons i L ih =>
    intro q0 hL hq0
    have hi : i < points.length := hL i (List.mem_cons_self i L)
    have hz : orientVal (points.getD p pt0) (points.getD i pt0) (points.getD q0 pt0) = 0 :=
      hcol _ (getD_mem_of_lt hp pt0) _ (getD_mem_of_lt hi pt0) _ (getD_mem_of_lt hq0 pt0)
    have hstep :
        (if orient (points.getD p pt0) (points.getD i pt0) (points.getD q0 pt0) = 2
          then i else q0) = q0 := by
      simp only [orient, hz]
      norm_num
    rw [List.foldl_cons, hstep]
    exact ih q0 (fun j hj => hL j (List.mem_cons_of_mem i hj)) hq0

/-- A fold over indices `< n` that only ever keeps the accumulator or
switches to an element of the list stays `< n`. -/
theorem leftMostIdx_lt {points : List Pt} (h : points ≠ []) :
    leftMostIdx points < points.length := by
  have hn : 0 < points.length := List.length_pos.mpr h
  unfold leftMostIdx
  suffices hgen : ∀ (L : List ℕ) (a : ℕ), (∀ i ∈ L, i < points.length) →
      a < points.length →
      (L.foldl (fun a i =>
        if (points.getD a pt0).x < (points.getD i pt0).x then a else i) a)
        < points.length by
    exact hgen _ 0 (fun i hi => List.mem_range.mp hi) hn
  intro L
  induction L with
  | nil => intro a _ ha; exact ha
  | cons i L ih =>
    intro a hL ha
    rw [List.foldl_cons]
    refine ih _ (fun j hj => hL j (List.mem_cons_of_mem i hj)) ?_
    split
    · exact ha
    · exact hL i (List.mem_cons_self i L)

/-- On an all-collinear point set, the jarvis loop started at offset
`n - k` from the leftmost index returns within `k` iterations. -/
theorem jarvisLoop_collinear {points : List Pt} (hcol : AllCollinear points)
    {lm : ℕ} (hlm : lm < points.length) :
    ∀ (k : ℕ), 1 ≤ k → k ≤ points.length → ∀ (hull : List Pt),
      (jarvisLoop points lm k ((lm + (points.length - k)) % points.length)
        hull).isSome := by
  intro k
  induction k with
  | zero => intro h1 _ _; omega
  | succ k ih =>
    intro _ hk hull
    have hn : 0 < points.length := by omega
    have hp : (lm + (points.length - (k + 1))) % points.length < points.length :=
      Nat.mod_lt _ hn
    rw [jarvisLoop, jarvisScan_collinear hcol hp]
    have hq : ((lm + (points.length - (k + 1))) % points.length + 1) % points.length
        = (lm + (points.length - k)) % points.length := by
      rw [Nat.mod_add_mod]
      congr 1
      omega
    rcases Nat.eq_zero_or_pos k with rfl | hkpos
    · -- last iteration: the candidate wraps to the leftmost index
      have heq : (lm + (points.length - 0)) % points.length = lm := by
        rw [Nat.sub_zero, Nat.add_comm, Nat.add_mod_left]
        exact Nat.mod_eq_of_lt hlm
      rw [hq, heq]
      simp
    · -- intermediate iteration: the candidate is not yet the leftmost index
      have hne : (lm + (points.length - k)) % points.length ≠ lm := by
        intro heq
        have h1 : (lm + (points.length - k)) % points.length
            = (lm % points.length + (points.length - k) % points.length)
              % points.length := by rw [Nat.add_mod]
        rcases Nat.lt_or_ge (lm + (points.length - k)) points.length with hlt | hge
        · rw [Nat.mod_eq_of_lt hlt] at heq; omega
        · have h2 : lm + (points.length - k) - points.length < points.length := by omega
          rw [Nat.mod_eq_sub_mod hge, Nat.mod_eq_of_lt h2] at heq
          omega
      rw [hq]
      simp only [if_neg hne]
      exact ih hkpos (by omega) _

/-- C6: The Jarvis-march convex hull loop terminates (returns to its
starting index, producing a hull) for every degenerate input: a single
point, two points, and any all-collinear point set.  Termination is
expressed by the loop yielding a result within a fuel of
`points.length` iterations. -/
theorem jarvis_terminates_degenerate (points : List Pt) (hne : points ≠ [])
    (h : points.length ≤ 2 ∨ AllCollinear points) :
    (jarvis points).isSome := by
  have hcol : AllCollinear points := h.elim allCollinear_of_le_two id
  have hn : 0 < points.length := List.length_pos.mpr hne
  have hlm := leftMostIdx_lt hne
  have hloop := jarvisLoop_collinear hcol hlm points.length hn (le_refl _) []
  rw [Nat.sub_self, Nat.add_zero, Nat.mod_eq_of_lt hlm] at hloop
  exact hloop

/-- Witness for C6 at the concrete two-point input `[(0,0), (1,1)]`. -/
theorem jarvis_terminates_degenerate_witness :
    (jarvis [⟨0, 0⟩, ⟨1, 1⟩]).isSome :=
  jarvis_terminates_degenerate _ (List.cons_ne_nil _ _) (Or.inl (by norm_num))

/-! ## pure.js: separating-axis polygon overlap (`polygonPolygon`) -/

/-- The projections `normal.x * P[j] + normal.y * P[j+1]` of a polygon's
vertices onto an axis. -/
def projs (nrm : Pt) (l : List Pt) : List ℚ :=
  l.map (fun p => nrm.x * p.x + nrm.y * p.y)

/-- The running minimum starting from `null`
(`if (minA === null || projected < minA) minA = projected`). -/
def optMin (l : List ℚ) : Option ℚ :=
  l.foldl (fun acc x => match acc with
    | none => some x
    | some m => some (min m x)) none

/-- The running maximum starting from `null`. -/
def optMax (l : List ℚ) : Option ℚ :=
  l.foldl (fun acc x => match acc with
    | none => some x
    | some m => some (max m x)) none

/-- The per-axis separation test `maxA < minB || maxB < minA` of
`polygonPolygon`.  A `null` extremum (empty vertex list) compares as the
number 0, mirroring JavaScript's `ToNumber(null) = 0` in `<`. -/
def separated (nrm : Pt) (a b : List Pt) : Bool :=
  decide ((optMax (projs nrm a)).getD 0 < (optMin (projs nrm b)).getD 0)
  || decide ((optMax (projs nrm b)).getD 0 < (optMin (projs nrm a)).getD 0)

/-- The edge normals of a polygon: for each cyclically consecutive vertex
pair `(p, q)` (indices `i1` and `i2 = (i1+2) % length` of the flat list),
the normal `{x: q.y - p.y, y: p.x - q.x}`. -/
def edgeNormals (l : List Pt) : List Pt :=
  (l.zip (l.rotate 1)).map (fun pq => ⟨pq.2.y - pq.1.y, pq.1.x - pq.2.x⟩)

/-- `polygonPolygon` of pure.js on flat coordinate lists: true unless some
edge normal of either polygon separates the two projection intervals.
(The source's early `return false` is equivalent to this `all`.) -/
def polygonPolygon (points1 points2 : List ℚ) : Bool :=
  let a := toPairs points1
  let b := toPairs points2
  (edgeNormals a ++ edgeNormals b).all (fun nrm => !(separated nrm a b))

/-- C7: the separating-axis overlap test is symmetric on flat coordinate
lists (of even length, the shape the source's pairwise index arithmetic
presumes). -/
theorem polygonPolygon_symm (A B : List ℚ)
    (hA : A.length % 2 = 0) (hB : B.length % 2 = 0) :
    polygonPolygon A B = polygonPolygon B A := by
  simp only [polygonPolygon, List.all_append]
  have hsep : ∀ (nrm : Pt),
      separated nrm (toPairs A) (toPairs B) = separated nrm (toPairs B) (toPairs A) :=
    fun nrm => Bool.or_comm _ _
  rw [Bool.and_comm]
  simp only [hsep]

/-- Witness for C7 at two concrete squares. -/
theorem polygonPolygon_symm_witness :
    polygonPolygon [0, 0, 4, 0, 4, 4, 0, 4] [2, 2, 6, 2, 6, 6, 2, 6]
      = polygonPolygon [2, 2, 6, 2, 6, 6, 2, 6] [0, 0, 4, 0, 4, 4, 0, 4] :=
  polygonPolygon_symm _ _ (by norm_num) (by norm_num)

/-! ## C10: rgb → hsv → rgb round-trip -/

theorem jsRem_of_lt {a : ℚ} (h0 : 0 ≤ a) (h6 : a < 6) : jsRem a 6 = a := by
  have h : jsTrunc (a / 6) = 0 := by
    rw [jsTrunc, if_pos (by positivity)]
    rw [Int.floor_eq_zero_iff]
    constructor
    · positivity
    · rw [div_lt_one (by norm_num)]; linarith
  rw [jsRem, h]; ring

theorem jsRem_of_ge {a : ℚ} (h6 : 6 ≤ a) (h12 : a < 12) : jsRem a 6 = a - 6 := by
  have h : jsTrunc (a / 6) = 1 := by
    rw [jsTrunc, if_pos (by positivity)]
    rw [Int.floor_eq_iff]
    constructor
    · rw [show ((1:ℤ) : ℚ) = 1 by norm_num, le_div_iff (by norm_num : (0:ℚ) < 6)]; linarith
    · rw [show ((1:ℤ) : ℚ) + 1 = 2 by norm_num, div_lt_iff (by norm_num : (0:ℚ) < 6)]; linarith
  rw [jsRem, h]; ring

/-- Evaluation of the clamp factor for arguments in `[1,3]`. -/
theorem clampRem_13 {x : ℚ} (h1 : 1 ≤ x) (h3 : x ≤ 3) :
    max (min (jsRem x 6) (min (4 - jsRem x 6) 1)) 0 = 1 := by
  rw [jsRem_of_lt (by linarith) (by linarith)]
  rw [min_def, min_def, max_def]
  split_ifs <;> linarith

theorem clampRem_35 {x : ℚ} (h3 : 3 ≤ x) (h5 : x ≤ 5) :
    max (min (jsRem x 6) (min (4 - jsRem x 6) 1)) 0 = max (4 - x) 0 := by
  rw [jsRem_of_lt (by linarith) (by linarith)]
  rw [min_def, min_def, max_def, max_def]
  split_ifs <;> linarith

theorem clampRem_57 {x : ℚ} (h5 : 5 ≤ x) (h7 : x ≤ 7) :
    max (min (jsRem x 6) (min (4 - jsRem x 6) 1)) 0 = max (x - 6) 0 := by
  rcases lt_or_le x 6 with h | h
  · rw [jsRem_of_lt (by linarith) h]
    rw [min_def, min_def, max_def, max_def]
    split_ifs <;> linarith
  · rw [jsRem_of_ge h (by linarith)]
    rw [min_def, min_def, max_def, max_def]
    split_ifs <;> linarith

theorem clampRem_79 {x : ℚ} (h7 : 7 ≤ x) (h9 : x ≤ 9) :
    max (min (jsRem x 6) (min (4 - jsRem x 6) 1)) 0 = 1 := by
  rw [jsRem_of_ge (by linarith) (by linarith)]
  rw [min_def, min_def, max_def]
  split_ifs <;> linarith

theorem clampRem_911 {x : ℚ} (h9 : 9 ≤ x) (h11 : x ≤ 11) :
    max (min (jsRem x 6) (min (4 - jsRem x 6) 1)) 0 = max (10 - x) 0 := by
  rw [jsRem_of_ge (by linarith) (by linarith)]
  rw [min_def, min_def, max_def, max_def]
  split_ifs <;> linarith


theorem hsvChan_offset (hb e s v n : ℚ) :
    hsvChan ⟨60 * (hb - e), s, v⟩ n
      = v - v * s * max (min (jsRem (n + hb - e) 6)
          (min (4 - jsRem (n + hb - e) 6) 1)) 0 := by
  have h60 : (60 : ℚ) * (hb - e) / 60 = hb - e := by
    rw [mul_comm, mul_div_assoc]; norm_num
  simp only [hsvChan, h60]
  ring_nf

section ChanEval

theorem chan_eval_mn {mn mx d : ℚ} (hmx : 0 < mx) (hlt : mn < mx)
    (hdlo : -(mx - mn) ≤ d) (hdhi : d ≤ mx - mn)
    (n hb : ℚ) (hw : n + hb = 2 ∨ n + hb = 8) :
    hsvChan ⟨60 * (hb - d / (mx - mn)), (mx - mn) / mx, mx⟩ n = mn := by
  have hden : (0:ℚ) < mx - mn := by linarith
  have he1 : -1 ≤ d / (mx - mn) := by
    rw [neg_le, ← neg_div, div_le_one hden]; linarith
  have he2 : d / (mx - mn) ≤ 1 := by rw [div_le_one hden]; linarith
  rw [hsvChan_offset]
  have harg : n + hb - d / (mx - mn) = (n + hb) - d / (mx - mn) := by ring
  have hms : mx * ((mx - mn) / mx) = mx - mn := by field_simp
  rcases hw with hw | hw <;> rw [harg, hw]
  · rw [clampRem_13 (by linarith) (by linarith), mul_one, hms]; ring
  · rw [clampRem_79 (by linarith) (by linarith), mul_one, hms]; ring

theorem chan_eval_mxmax {mn mx d : ℚ} (hmx : 0 < mx) (hlt : mn < mx)
    (hdlo : -(mx - mn) ≤ d) (hdhi : d ≤ mx - mn)
    (n hb : ℚ) (hw : n + hb = 4 ∨ n + hb = 10) :
    hsvChan ⟨60 * (hb - d / (mx - mn)), (mx - mn) / mx, mx⟩ n
      = mx - max d 0 := by
  have hden : (0:ℚ) < mx - mn := by linarith
  have he1 : -1 ≤ d / (mx - mn) := by
    rw [neg_le, ← neg_div, div_le_one hden]; linarith
  have he2 : d / (mx - mn) ≤ 1 := by rw [div_le_one hden]; linarith
  have hfac : mx * ((mx - mn) / mx) * max (d / (mx - mn)) 0 = max d 0 := by
    rw [show mx * ((mx - mn) / mx) = mx - mn by field_simp]
    rw [mul_max_of_nonneg _ _ (le_of_lt hden), mul_zero,
      mul_div_cancel₀ _ (ne_of_gt hden)]
  rw [hsvChan_offset]
  have harg : n + hb - d / (mx - mn) = (n + hb) - d / (mx - mn) := by ring
  rcases hw with hw | hw <;> rw [harg, hw]
  · rw [clampRem_35 (by linarith) (by linarith),
      show 4 - (4 - d / (mx - mn)) = d / (mx - mn) by ring, hfac]
  · rw [clampRem_911 (by linarith) (by linarith),
      show 10 - (10 - d / (mx - mn)) = d / (mx - mn) by ring, hfac]

theorem chan_eval_mxmin {mn mx d : ℚ} (hmx : 0 < mx) (hlt : mn < mx)
    (hdlo : -(mx - mn) ≤ d) (hdhi : d ≤ mx - mn)
    (n hb : ℚ) (hw : n + hb = 6) :
    hsvChan ⟨60 * (hb - d / (mx - mn)), (mx - mn) / mx, mx⟩ n
      = mx + min d 0 := by
  have hden : (0:ℚ) < mx - mn := by linarith
  have he1 : -1 ≤ d / (mx - mn) := by
    rw [neg_le, ← neg_div, div_le_one hden]; linarith
  have he2 : d / (mx - mn) ≤ 1 := by rw [div_le_one hden]; linarith
  rw [hsvChan_offset]
  have harg : n + hb - d / (mx - mn) = (n + hb) - d / (mx - mn) := by ring
  rw [harg, hw, clampRem_57 (by linarith) (by linarith),
    show 6 - d / (mx - mn) - 6 = -(d / (mx - mn)) by ring]
  have hfac : mx * ((mx - mn) / mx) * max (-(d / (mx - mn))) 0 = max (-d) 0 := by
    rw [show mx * ((mx - mn) / mx) = mx - mn by field_simp]
    rw [mul_max_of_nonneg _ _ (le_of_lt hden), mul_zero, ← neg_div,
      mul_div_cancel₀ _ (ne_of_gt hden)]
  rw [hfac]
  rcases le_total d 0 with h | h
  · rw [max_eq_left (by linarith), min_eq_left h]; ring
  · rw [max_eq_right (by linarith), min_eq_right h]; ring

end ChanEval

/-- Round-trip on normalized channel values. -/
theorem hsvOfUnit_roundtrip (r g b : ℚ)
    (h0r : 0 ≤ r) (h0g : 0 ≤ g) (h0b : 0 ≤ b) :
    hsv2rgb (hsvOfUnit r g b) = ⟨255 * r, 255 * g, 255 * b⟩ := by
  have hmr : min r (min g b) ≤ r := min_le_left _ _
  have hmg : min r (min g b) ≤ g := le_trans (min_le_right _ _) (min_le_left _ _)
  have hmb : min r (min g b) ≤ b := le_trans (min_le_right _ _) (min_le_right _ _)
  have hrM : r ≤ max r (max g b) := le_max_left _ _
  have hgM : g ≤ max r (max g b) := le_trans (le_max_left _ _) (le_max_right _ _)
  have hbM : b ≤ max r (max g b) := le_trans (le_max_right _ _) (le_max_right _ _)
  have h0m : 0 ≤ min r (min g b) := le_min h0r (le_min h0g h0b)
  by_cases hmm : min r (min g b) = max r (max g b)
  · -- gray case: r = g = b = the common value
    have hrv : r = max r (max g b) := le_antisymm hrM (hmm ▸ hmr)
    have hgv : g = max r (max g b) := le_antisymm hgM (hmm ▸ hmg)
    have hbv : b = max r (max g b) := le_antisymm hbM (hmm ▸ hmb)
    simp only [hsvOfUnit, if_pos hmm, hsv2rgb, hsvChan, RGB.mk.injEq,
      mul_zero, zero_mul, sub_zero]
    exact ⟨by rw [← hrv], by rw [← hgv], by rw [← hbv]⟩
  · have hltmM : min r (min g b) < max r (max g b) :=
      lt_of_le_of_ne (le_trans hmr hrM) hmm
    have hMpos : 0 < max r (max g b) := lt_of_le_of_lt h0m hltmM
    simp only [hsvOfUnit, if_neg hmm]
    by_cases hA : r = min r (min g b)
    · -- red is the minimum channel: d = g - b, hbase = 3
      simp only [if_pos hA, hsv2rgb, RGB.mk.injEq]
      refine ⟨?_, ?_, ?_⟩
      · rw [chan_eval_mn hMpos hltmM (by linarith) (by linarith) 5 3
          (Or.inr (by norm_num)), ← hA]
      · rw [chan_eval_mxmin hMpos hltmM (by linarith) (by linarith) 3 3
          (by norm_num)]
        rcases le_total b g with hbg | hgb
        · have h1 : max g b = g := max_eq_left hbg
          have h2 : max r (max g b) = g := by
            rw [h1]; exact max_eq_right (hA ▸ hmg)
          rw [h2, min_eq_right (by linarith)]; ring
        · have h1 : max g b = b := max_eq_right hgb
          have h2 : max r (max g b) = b := by
            rw [h1]; exact max_eq_right (hA ▸ hmb)
          rw [h2, min_eq_left (by linarith)]; ring
      · rw [chan_eval_mxmax hMpos hltmM (by linarith) (by linarith) 1 3
          (Or.inl (by norm_num))]
        rcases le_total b g with hbg | hgb
        · have h1 : max g b = g := max_eq_left hbg
          have h2 : max r (max g b) = g := by
            rw [h1]; exact max_eq_right (hA ▸ hmg)
          rw [h2, max_eq_left (by linarith)]; ring
        · have h1 : max g b = b := max_eq_right hgb
          have h2 : max r (max g b) = b := by
            rw [h1]; exact max_eq_right (hA ▸ hmb)
          rw [h2, max_eq_right (by linarith)]; ring
    · by_cases hB : b = min r (min g b)
      · -- blue is the minimum channel: d = r - g, hbase = 1
        simp only [if_neg hA, if_pos hB, hsv2rgb, RGB.mk.injEq]
        refine ⟨?_, ?_, ?_⟩
        · rw [chan_eval_mxmin hMpos hltmM (by linarith) (by linarith) 5 1
            (by norm_num)]
          rcases le_total g r with hgr | hrg
          · have h1 : max g b = g := max_eq_left (hB ▸ hmg)
            have h2 : max r (max g b) = r := by rw [h1]; exact max_eq_left hgr
            rw [h2, min_eq_right (by linarith)]; ring
          · have h1 : max g b = g := max_eq_left (hB ▸ hmg)
            have h2 : max r (max g b) = g := by rw [h1]; exact max_eq_right hrg
            rw [h2, min_eq_left (by linarith)]; ring
        · rw [chan_eval_mxmax hMpos hltmM (by linarith) (by linarith) 3 1
            (Or.inl (by norm_num))]
          rcases le_total g r with hgr | hrg
          · have h1 : max g b = g := max_eq_left (hB ▸ hmg)
            have h2 : max r (max g b) = r := by rw [h1]; exact max_eq_left hgr
            rw [h2, max_eq_left (by linarith)]; ring
          · have h1 : max g b = g := max_eq_left (hB ▸ hmg)
            have h2 : max r (max g b) = g := by rw [h1]; exact max_eq_right hrg
            rw [h2, max_eq_right (by linarith)]; ring
        · rw [chan_eval_mn hMpos hltmM (by linarith) (by linarith) 1 1
            (Or.inl (by norm_num)), ← hB]
      · -- green is the minimum channel: d = b - r, hbase = 5
        have hG : g = min r (min g b) := by
          rcases min_choice r (min g b) with h | h
          · exact absurd h.symm hA
          · rcases min_choice g b with h2 | h2
            · rw [h, h2]
            · exact absurd (h.trans h2).symm hB
        simp only [if_neg hA, if_neg hB, hsv2rgb, RGB.mk.injEq]
        refine ⟨?_, ?_, ?_⟩
        · rw [chan_eval_mxmax hMpos hltmM (by linarith) (by linarith) 5 5
            (Or.inr (by norm_num))]
          rcases le_total r b with hrb | hbr
          · have h1 : max g b = b := max_eq_right (hG ▸ hmb)
            have h2 : max r (max g b) = b := by rw [h1]; exact max_eq_right hrb
            rw [h2, max_eq_left (by linarith)]; ring
          · have h1 : max g b = b := max_eq_right (hG ▸ hmb)
            have h2 : max r (max g b) = r := by rw [h1]; exact max_eq_left hbr
            rw [h2, max_eq_right (by linarith)]; ring
        · rw [chan_eval_mn hMpos hltmM (by linarith) (by linarith) 3 5
            (Or.inr (by norm_num)), ← hG]
        · rw [chan_eval_mxmin hMpos hltmM (by linarith) (by linarith) 1 5
            (by norm_num)]
          rcases le_total r b with hrb | hbr
          · have h1 : max g b = b := max_eq_right (hG ▸ hmb)
            have h2 : max r (max g b) = b := by rw [h1]; exact max_eq_right hrb
            rw [h2, min_eq_right (by linarith)]; ring
          · have h1 : max g b = b := max_eq_right (hG ▸ hmb)
            have h2 : max r (max g b) = r := by rw [h1]; exact max_eq_left hbr
            rw [h2, min_eq_left (by linarith)]; ring

/-- C10: for every rgb color with each channel in `[0, 255]`, converting
to hsv and back is the identity in exact rational arithmetic:
`hsv2rgb (rgb2hsv c) = c`.  (Only the lower bounds are needed by the
proof; the upper bounds are part of the claimed domain.) -/
theorem rgb_hsv_roundtrip (c : RGB)
    (h0r : 0 ≤ c.r) (h0g : 0 ≤ c.g) (h0b : 0 ≤ c.b)
    (h1r : c.r ≤ 255) (h1g : c.g ≤ 255) (h1b : c.b ≤ 255) :
    hsv2rgb (rgb2hsv c) = c := by
  obtain ⟨r0, g0, b0⟩ := c
  show hsv2rgb (hsvOfUnit (r0 / 255) (g0 / 255) (b0 / 255)) = _
  rw [hsvOfUnit_roundtrip _ _ _ (by positivity) (by positivity) (by positivity)]
  simp only [RGB.mk.injEq]
  refine ⟨?_, ?_, ?_⟩ <;>
    rw [mul_comm, div_mul_cancel₀ _ (by norm_num : (255:ℚ) ≠ 0)]


/-- Witness for C10 at the concrete color `(17, 211, 103)`. -/
theorem rgb_hsv_roundtrip_witness :
    hsv2rgb (rgb2hsv ⟨17, 211, 103⟩) = ⟨17, 211, 103⟩ :=
  rgb_hsv_roundtrip ⟨17, 211, 103⟩ (by norm_num) (by norm_num) (by norm_num)
    (by norm_num) (by norm_num) (by norm_num)

/-! ## The shape model (Shapes.js and its unnamed variants)

Each shape is a mutable JavaScript object; it is modelled as a record
`Obj`, with each method a function `Obj → Obj`.  The repository contains
several lesson-stage variants of Shapes.js; as in the specification, the
most advanced variant of each method is embedded (the doc comment of each
definition names its source).  The transcendental operations are supplied
by a `JsEnv` of abstract function parameters. -/

/-- The abstract numeric environment: `Math.sqrt`, `Math.sin`,
`Math.cos`, `x % (2 * Math.PI)` and `Math.round`, which are not
rational-valued and are therefore parameters of the embedding.  Every
theorem holds for all interpretations, in particular the real one. -/
structure JsEnv where
  sqrt : ℚ → ℚ
  sin : ℚ → ℚ
  cos : ℚ → ℚ
  modTau : ℚ → ℚ
  round : ℚ → ℚ

/-- A bounding box `{x, y, w, h}` (`this.bb`). -/
structure BB where
  x : ℚ
  y : ℚ
  w : ℚ
  h : ℚ
deriving DecidableEq, Repr

/-- The variant payload: `Square {w, h}`; `Circle` (its radius lives in
the shared `r` field, as in the source where `this.r` is both the circle
radius and the bounding radius); `Polygon {points}` (centroid-relative). -/
inductive SKind where
  | square (w h : ℚ)
  | circle
  | polygon (points : List Pt)
deriving DecidableEq, Repr

/-- A shape object: the fields of `Shape` (Shapes.js) plus the variant
payload.  `ref` models the JavaScript object identity (allocation
address): distinct live objects carry distinct `ref`s, and reference
equality (`Array.includes`, `Set` membership) is structural equality of
the record including `ref`. -/
structure Obj where
  ref : ℕ
  id : ℕ
  x : ℚ
  y : ℚ
  c : String
  f : String
  rot : ℚ
  kind : SKind
  bb : BB
  center : Pt
  r : ℚ
deriving DecidableEq, Repr

/-- `move(d)`.  Square: the inherited `Shape.move` of the advanced
Shapes.js variant (lines 519–524): `x += d.x; y += d.y; bb.x = x;
bb.y = y`.  Circle: `Circle.move` (lines 657–662, also part_001 310–315):
the bounding box is re-anchored at `x - r, y - r`.  Polygon:
`Polygon.move` of part_001 (lines 271–274): only `x, y` change. -/
def Obj.move (d : Pt) (s : Obj) : Obj :=
  match s.kind with
  | .square _ _ =>
    { s with x := s.x + d.x, y := s.y + d.y,
             bb := { s.bb with x := s.x + d.x, y := s.y + d.y } }
  | .circle =>
    { s with x := s.x + d.x, y := s.y + d.y,
             bb := { s.bb with x := s.x + d.x - s.r, y := s.y + d.y - s.r } }
  | .polygon _ => { s with x := s.x + d.x, y := s.y + d.y }

/-- The absolute-outline projection `get polygon`.  Square: Shapes.js
lines 313–316.  Circle: part_001 lines 316–319 (bounding square).
Polygon: part_001 lines 242–245 (`points2xyList` of the centroid-relative
points shifted by `x, y`). -/
def Obj.polygon (s : Obj) : List ℚ :=
  match s.kind with
  | .square w h =>
    [s.x, s.y, s.x + w, s.y, s.x + w, s.y + h, s.x, s.y + h]
  | .circle =>
    [s.x - s.r, s.y - s.r, s.x + s.r, s.y - s.r,
     s.x + s.r, s.y + s.r, s.x - s.r, s.y + s.r]
  | .polygon pts => points2xyList (pts.map (fun e => ⟨s.x + e.x, s.y + e.y⟩))

/-- `centered()`.  Square (Shapes.js 297–302 / 613–618): bounding radius
`|{w,h}| / 2` and center at the middle of the box.  Circle (655–658 of
Shapes.js variant 1): center at `x, y`.  Polygon: no override, the base
`Shape.centered` only logs. -/
def Obj.centered (env : JsEnv) (s : Obj) : Obj :=
  match s.kind with
  | .square w h =>
    { s with r := env.sqrt (w ^ 2 + h ^ 2) / 2,
             center := ⟨s.x + w / 2, s.y + h / 2⟩ }
  | .circle => { s with center := ⟨s.x, s.y⟩ }
  | .polygon _ => s

/-- `scale(d, modify)`.  Square (Shapes.js 303–308):
`s = max(1 + d.x/100, 1/w, 1/h); w *= s; h *= s; centered()`.
Circle (359–362): `s = max(1 + d.x/100, 1/r); r *= s`.
Polygon (part_001 262–269): `largest` is the fold of
`Math.max(s, Math.abs(p.x), Math.max(p.y))` — note the source takes
`Math.max(p.y)`, i.e. `p.y` without absolute value — and the factor is
pinned to 1 on the axis excluded by `modify`. -/
def Obj.scale (env : JsEnv) (d : Pt) (modify : String) (s : Obj) : Obj :=
  match s.kind with
  | .square w h =>
    let sc := max (1 + d.x / 100) (max (1 / w) (1 / h))
    Obj.centered env { s with kind := .square (w * sc) (h * sc) }
  | .circle =>
    let sc := max (1 + d.x / 100) (1 / s.r)
    { s with r := s.r * sc }
  | .polygon pts =>
    let largest := pts.foldl (fun acc p => max acc (max |p.x| p.y)) 0
    let sc := max (1 + d.x / 100) (1 / largest)
    let sx := if modify = "y" then 1 else sc
    let sy := if modify = "x" then 1 else sc
    { s with kind := .polygon (pts.map (fun e => ⟨e.x * sx, e.y * sy⟩)) }

/-- `rotate(d)`.  Square: the inherited `Shape.rotate` of the advanced
Shapes.js variant (530–532): `rot += (d.x / 30) % (2π)`.  Circle
(part_001 332–334): empty body.  Polygon (part_001 255–260): rotates the
point list by `(d.x / 100) % (2π)` via the pure.js `rotate`. -/
def Obj.rotate (env : JsEnv) (d : Pt) (s : Obj) : Obj :=
  match s.kind with
  | .square _ _ => { s with rot := s.rot + env.modTau (d.x / 30) }
  | .circle => s
  | .polygon pts =>
    let angle := env.modTau (d.x / 100)
    let sn := env.sin angle
    let cs := env.cos angle
    { s with
        kind := .polygon (pts.map (fun p => ⟨p.x * cs - p.y * sn, p.x * sn + p.y * cs⟩)) }

/-- Pointwise translation of a flat coordinate list by `d`. -/
def translateFlat (d : Pt) : List ℚ → List ℚ
  | x :: y :: rest => (x + d.x) :: (y + d.y) :: translateFlat d rest
  | l => l

/-- C2: `move` commutes with the absolute polygon projection: the polygon
computed after `move(d)` is the polygon computed before with `d` added to
every vertex. -/
theorem move_polygon_translates (d : Pt) (s : Obj) :
    (s.move d).polygon = translateFlat d s.polygon := by
  obtain ⟨ref, id, x, y, c, f, rot, kind, bb, center, r⟩ := s
  cases kind with
  | square w h =>
    simp only [Obj.move, Obj.polygon, translateFlat, List.cons.injEq, and_true]
    refine ⟨by ring, by ring, by ring, by ring, by ring, by ring, by ring, by ring⟩
  | circle =>
    simp only [Obj.move, Obj.polygon, translateFlat, List.cons.injEq, and_true]
    refine ⟨by ring, by ring, by ring, by ring, by ring, by ring, by ring, by ring⟩
  | polygon pts =>
    simp only [Obj.move, Obj.polygon]
    induction pts with
    | nil => simp [points2xyList, translateFlat]
    | cons p rest ih =>
      simp only [List.map_cons, points2xyList, translateFlat, List.cons.injEq] at ih ⊢
      exact ⟨by ring, by ring, ih⟩

/-- The size quantities of a shape are strictly positive.  For a polygon
the precondition is a strictly positive extent along x (some
centroid-relative point with `p.x ≠ 0`) — this is exactly what a strictly
positive width gives, since the points straddle the centroid. -/
def sizesPos (s : Obj) : Prop :=
  match s.kind with
  | .square w h => 0 < w ∧ 0 < h
  | .circle => 0 < s.r
  | .polygon pts => ∃ p ∈ pts, p.x ≠ 0

/-- The extent of a polygon's point coordinates: the maximum absolute
coordinate value. -/
def polyExtent (pts : List Pt) : ℚ :=
  pts.foldl (fun acc p => max acc (max |p.x| |p.y|)) 0

/-- The size quantities of a shape after an operation: positive `w`/`h`,
positive radius, or strictly positive coordinate extent of the point
list. -/
def sizesPosOut (s : Obj) : Prop :=
  match s.kind with
  | .square w h => 0 < w ∧ 0 < h
  | .circle => 0 < s.r
  | .polygon pts => 0 < polyExtent pts

theorem le_foldl_max (f : Pt → ℚ) :
    ∀ (pts : List Pt) (a : ℚ), a ≤ pts.foldl (fun acc q => max acc (f q)) a := by
  intro pts
  induction pts with
  | nil => intro a; exact le_refl a
  | cons q rest ih =>
    intro a
    rw [List.foldl_cons]
    exact le_trans (le_max_left a (f q)) (ih (max a (f q)))

theorem mem_le_foldl_max (f : Pt → ℚ) :
    ∀ (pts : List Pt) (a : ℚ) (p : Pt), p ∈ pts →
      f p ≤ pts.foldl (fun acc q => max acc (f q)) a := by
  intro pts
  induction pts with
  | nil => intro a p hp; exact absurd hp (List.not_mem_nil p)
  | cons q rest ih =>
    intro a p hp
    rw [List.foldl_cons]
    rcases List.mem_cons.mp hp with rfl | hp
    · exact le_trans (le_max_right a (f p)) (le_foldl_max f rest _)
    · exact ih _ p hp

/-- C3: for every shape whose dimensions are strictly positive, `scale`
leaves every size quantity strictly positive, for every drag vector `d`
(including arbitrarily large negative `d.x`) and every axis-lock
`modify`. -/
theorem scale_preserves_positive (env : JsEnv) (d : Pt) (modify : String)
    (s : Obj) (h : sizesPos s) : sizesPosOut (s.scale env d modify) := by
  obtain ⟨ref, id, x, y, c, f, rot, kind, bb, center, r⟩ := s
  cases kind with
  | square w h =>
    obtain ⟨hw, hh⟩ := h
    have hsc : 0 < max (1 + d.x / 100) (max (1 / w) (1 / h)) :=
      lt_of_lt_of_le (by positivity : 0 < 1 / w)
        (le_trans (le_max_left _ _) (le_max_right _ _))
    exact ⟨mul_pos hw hsc, mul_pos hh hsc⟩
  | circle =>
    have hr : 0 < r := h
    have hsc : 0 < max (1 + d.x / 100) (1 / r) :=
      lt_of_lt_of_le (by positivity : 0 < 1 / r) (le_max_right _ _)
    exact mul_pos hr hsc
  | polygon pts =>
    obtain ⟨p, hp, hpx⟩ := h
    simp only [Obj.scale, sizesPosOut]
    set L := pts.foldl (fun acc q => max acc (max |q.x| q.y)) 0 with hL
    set sc := max (1 + d.x / 100) (1 / L) with hscdef
    set sx := (if modify = "y" then (1:ℚ) else sc) with hsxdef
    set sy := (if modify = "x" then (1:ℚ) else sc) with hsydef
    have h0L : 0 < L := by
      have h1 : |p.x| ≤ max |p.x| p.y := le_max_left _ _
      have h2 := mem_le_foldl_max (fun q => max |q.x| q.y) pts 0 p hp
      have h3 : 0 < |p.x| := abs_pos.mpr hpx
      rw [hL]
      simp only at h2
      linarith
    have h0sc : 0 < sc := lt_of_lt_of_le (by positivity) (le_max_right _ _)
    have h0sx : 0 < sx := by
      rw [hsxdef]; split
      · norm_num
      · exact h0sc
    have hext := mem_le_foldl_max (fun q => max |q.x| |q.y|)
      (pts.map (fun e => ⟨e.x * sx, e.y * sy⟩)) 0 ⟨p.x * sx, p.y * sy⟩
      (List.mem_map_of_mem _ hp)
    simp only at hext
    have habs : 0 < |p.x * sx| := by
      rw [abs_mul]
      exact mul_pos (abs_pos.mpr hpx) (abs_pos.mpr (ne_of_gt h0sx))
    have h5 : |p.x * sx| ≤ max |p.x * sx| |p.y * sy| := le_max_left _ _
    unfold polyExtent
    linarith

/-- Witness for C3: a concrete `3 × 4` square scaled by a large negative
drag keeps strictly positive dimensions. -/
theorem scale_preserves_positive_witness :
    sizesPosOut (Obj.scale ⟨id, id, id, id, id⟩ ⟨-1000, 0⟩ ""
      ⟨0, 1, 10, 10, "blue", "transparent", 0, .square 3 4,
        ⟨10, 10, 3, 4⟩, ⟨10, 10⟩, 1⟩) :=
  scale_preserves_positive _ _ _ _ ⟨by norm_num, by norm_num⟩

/-! ## Hit testing (`contains`, `touching`) -/

/-- `polygonPoint` of pure.js: the crossing-number point-in-polygon test.
The loop pairs each vertex `i` with the previous vertex `j` (starting at
the last); on a flat list this is exactly the cyclic pairing below.  The
division is total on `ℚ` (`x / 0 = 0`); the source only reaches it when
`pj.y ≠ pi.y`, where both agree. -/
def polygonPoint (points : List ℚ) (p : Pt) : Bool :=
  let pts := toPairs points
  (pts.zip (pts.rotate (pts.length - 1))).foldl
    (fun c pq =>
      if (decide (pq.1.y > p.y) != decide (pq.2.y > p.y))
          && decide (p.x <
            (pq.2.x - pq.1.x) * (p.y - pq.1.y) / (pq.2.y - pq.1.y) + pq.1.x)
      then !c else c)
    false

/-- `contains(p)`.  Square: no variant overrides it, so the base
`Shape.contains` runs (Shapes.js 175–178), which only logs and returns
false.  Circle (part_001 321–323) and Polygon (part_001 251–253): the
point-in-polygon test over the absolute outline. -/
def Obj.contains (p : Pt) (s : Obj) : Bool :=
  match s.kind with
  | .square _ _ => false
  | .circle => polygonPoint s.polygon p
  | .polygon _ => polygonPoint s.polygon p

/-- The `{center, r}` circle passed to `touching` by the select gesture. -/
structure CircBB where
  center : Pt
  r : ℚ
deriving DecidableEq, Repr

/-- `Vector.length`: `Math.sqrt(x**2 + y**2)` under the abstract square
root. -/
def vlen (env : JsEnv) (v : Pt) : ℚ := env.sqrt v.normSq

/-- `Shape.touching(b)` (Shapes.js 568–572): the circle approximation
`|a.center - b.center| < a.r + b.r`. -/
def Obj.touching (env : JsEnv) (b : CircBB) (a : Obj) : Bool :=
  decide (vlen env ⟨a.center.x - b.center.x, a.center.y - b.center.y⟩ < a.r + b.r)

/-! ## The tool/selection state machine (ActionTools.js, ActionKeys.js)

The mutable globals (`AT`, `SelectedShapes.list`, `drawings`, the ghost
canvas) become the fields of a state record `St`; each event handler
becomes a transition `St → St`.  The ghost canvas is modelled by the list
of shape snapshots currently rendered on it.  In the source the selected
shapes are the same objects as those in the drawing list; a committed
transform mutates them in place and is modelled by updating both lists
pointwise. -/

structure St where
  tool : String
  type : String
  start : Option Pt
  endP : Option Pt
  color : String
  fill : String
  modify : String
  abort : Bool
  mouse : Pt
  revert : Option (String × String)
  drawings : List Obj
  selected : List Obj
  ghost : List Obj
  canvasMove : Bool
  nextId : ℕ
  nextRef : ℕ
deriving Repr

/-- `Array.from(new Set(list))` (`SelectedShapes._clean`, ActionTools.js
51–54): keep the first occurrence of each element, in order. -/
def jsDedupAux {α : Type} [DecidableEq α] : List α → List α → List α
  | _, [] => []
  | seen, a :: rest =>
    if a ∈ seen then jsDedupAux seen rest
    else a :: jsDedupAux (a :: seen) rest

/-- `SelectedShapes._clean`: deduplicate preserving first occurrences. -/
def jsDedup {α : Type} [DecidableEq α] (l : List α) : List α := jsDedupAux [] l

/-- `SelectedShapes.ghost` (ActionTools.js 69–78): for each selected
shape, temporarily overwrite its stroke with `"red"` and its fill with
`"rgba(0,0,250,0.2)"`, render that snapshot, then write the saved colors
back.  Returns (rendered snapshots, shapes after the pass). -/
def ghostLoop : List Obj → List Obj × List Obj
  | [] => ([], [])
  | s :: rest =>
    let c := s.c
    let f := s.f
    let s1 := { s with c := "red", f := "rgba(0,0,250,0.2)" }
    let s2 := { s1 with c := c, f := f }
    let r := ghostLoop rest
    (s1 :: r.1, s2 :: r.2)

/-- `SimpleKeyAction.Escape` (ActionKeys.js 125–129): set the abort flag,
drop the move cursor, clear the ghost layer. -/
def escapeKey (st : St) : St :=
  { st with abort := true, canvasMove := false, ghost := [] }

/-- `moveState` (ActionKeys.js 193–198). -/
def moveState (action : String) (st : St) : St :=
  { st with tool := action, type := "pointer", canvasMove := true }

/-- `startKeyAction` (ActionKeys.js 205–221): with an empty selection,
pick the topmost shape under the pointer (`drawings.filter(contains)` and
`slice(-1)`), record the revert target, and enter the transform mode;
with a non-empty selection just enter the mode.  (The `AT.jarvisHull`
cache reset is not modelled; nothing below depends on it.) -/
def startKeyAction (action : String) (st : St) : St :=
  let oldTool := st.tool
  let oldType := st.type
  if st.selected.length = 0 then
    let inside := st.drawings.filter (fun s => s.contains st.mouse)
    match inside.getLast? with
    | some s =>
      moveState action { st with selected := [s], revert := some (oldTool, oldType) }
    | none => st
  else moveState action st

/-- The mousedown handler (`startAction`, part_003 244–249): record the
gesture's starting point. -/
def startAction (p : Pt) (st : St) : St := { st with start := some p }

/-- The clone of `ExtendedKeyAction.D`:
`Object.assign(Object.create(Object.getPrototypeOf(s)), s)` copies every
own enumerable field — including `id` — into a fresh object; only the
object identity (`ref`) is new.  (In JavaScript the copied `points` and
`bb` fields are references shared with the original.) -/
def cloneList (base : ℕ) (l : List Obj) : List Obj :=
  l.enum.map (fun is => { is.2 with ref := base + is.1 })

/-- `ExtendedKeyAction.D` (ActionKeys.js 248–258): append a clone of
every selected shape to the drawing list and make the clones
(`drawings.slice(start)`) the new selection. -/
def duplicateD (st : St) : St :=
  let clones := cloneList st.nextRef st.selected
  { st with
      drawings := st.drawings ++ clones,
      selected := clones,
      nextRef := st.nextRef + clones.length }

/-- The radius of the select gesture's hit circle:
`Math.round(wh.length * 10) / 10` for `wh = end - start`. -/
def selRadius (env : JsEnv) (start endp : Pt) : ℚ :=
  env.round (vlen env (endp.sub start) * 10) / 10

/-- The hit set of a select gesture: every drawing touching the circle
around `start` of radius `selRadius` (ActionTools.js 417–422). -/
def hitSet (env : JsEnv) (start endp : Pt) (drawings : List Obj) : List Obj :=
  drawings.filter (fun s => s.touching env ⟨start, selRadius env start endp⟩)

/-- `new Square({x, y, w, h, c, f})`: the `Shape` base constructor
(advanced variant: `rot = 0`, `center = {x,y}`, `r = 1`) followed by the
`Square` constructor (`bb = {x,y,w,h}`, then `centered()`). -/
def mkSquare (env : JsEnv) (ref id : ℕ) (x y w h : ℚ) (c f : String) : Obj :=
  Obj.centered env
    { ref := ref, id := id, x := x, y := y, c := c, f := f, rot := 0,
      kind := .square w h, bb := ⟨x, y, w, h⟩, center := ⟨x, y⟩, r := 1 }

/-- `new Circle({x, y, r, c, f})`: `bb` anchored at `x - r, y - r`,
center at `x, y`. -/
def mkCircle (ref id : ℕ) (x y r : ℚ) (c f : String) : Obj :=
  { ref := ref, id := id, x := x, y := y, c := c, f := f, rot := 0,
    kind := .circle, bb := ⟨x - r, y - r, r + r, r + r⟩,
    center := ⟨x, y⟩, r := r }

/-- `makeShape` → `MakeShapes[AT.tool]?.()` (ActionTools.js 103–108,
126–167): `square` builds a square when both sides are nonzero, `circle`
builds a circle when the radius exceeds 1; every other tool (including
the ghost-only `select`/`move` entries and missing entries) produces no
shape. -/
def makeShape (env : JsEnv) (st : St) (start endp : Pt) : Option Obj :=
  if st.tool = "square" then
    let wh := start.sub endp
    if 0 < |wh.y| ∧ 0 < |wh.x| then
      some (mkSquare env st.nextRef st.nextId start.x start.y |wh.x| |wh.y|
        st.color st.fill)
    else none
  else if st.tool = "circle" then
    let r := env.round (vlen env (start.sub endp) * 10) / 10
    if 1 < r then
      some (mkCircle st.nextRef st.nextId start.x start.y r st.color st.fill)
    else none
  else none

/-- `endAction` (ActionTools.js 403–508): the mouse-up transition.
The commit phase runs only with a recorded start and no abort:
* `select` combines the hit set with the previous selection by modifier
  (Shift → concat, Control → filter-out, none → replace) and the
  subsequent `show` deduplicates;
* `move`/`rotate`/`scale` apply the transform to every selected shape
  when the drag exceeds the 1-pixel threshold (with `renderAll` clearing
  the ghost layer), then always reset the tool to `select`;
* a `shape`-typed tool appends the produced shape, if any;
* any other type falls to the `default` case, resetting the tool.
The post phase (unless the tool is `"pgon"`) clears the ghost layer,
forgets `start`, clears `abort`, and processes a recorded revert target
(restore tool/type, clear the selection).  Finally the selection
highlight is re-rendered onto the ghost layer. -/
def endAction (env : JsEnv) (keys : List String) (e : Pt) (st : St) : St :=
  let st :=
    match st.start with
    | some start =>
      if st.abort then st else
      let st := { st with endP := some e }
      if st.type = "pointer" then
        let st :=
          if st.tool = "select" then
            let inside := hitSet env start e st.drawings
            let sel :=
              if "Shift" ∈ keys then st.selected ++ inside
              else if "Control" ∈ keys then
                st.selected.filter (fun s => !(decide (s ∈ inside)))
              else inside
            { st with selected := jsDedup sel }
          else st
        let st :=
          if st.tool = "move" then
            let diff := e.sub start
            let st :=
              if 1 < vlen env diff then
                { st with
                    drawings := st.drawings.map (fun s =>
                      if s ∈ st.selected then Obj.centered env (s.move diff) else s),
                    selected := st.selected.map
                      (fun (s : Obj) => Obj.centered env (s.move diff)),
                    ghost := [] }
              else st
            { st with tool := "select", canvasMove := false }
          else st
        let st :=
          if st.tool = "rotate" then
            let diff := e.sub start
            let st :=
              if 1 < vlen env diff then
                { st with
                    drawings := st.drawings.map (fun s =>
                      if s ∈ st.selected then s.rotate env diff else s),
                    selected := st.selected.map (fun (s : Obj) => s.rotate env diff),
                    ghost := [] }
              else st
            { st with tool := "select", canvasMove := false }
          else st
        let st :=
          if st.tool = "scale" then
            let diff := e.sub start
            let st :=
              if 1 < vlen env diff then
                { st with
                    drawings := st.drawings.map (fun s =>
                      if s ∈ st.selected then s.scale env diff "" else s),
                    selected := st.selected.map (fun (s : Obj) => s.scale env diff ""),
                    ghost := [] }
              else st
            { st with tool := "select", canvasMove := false }
          else st
        st
      else if st.type = "shape" then
        (match makeShape env st start e with
          | some shape =>
            { st with
                drawings := st.drawings ++ [shape],
                nextId := st.nextId + 1, nextRef := st.nextRef + 1 }
          | none => st)
      else { st with tool := "select" }
    | none => st
  let st :=
    if st.tool ≠ "pgon" then
      let st := { st with ghost := [], start := none, abort := false }
      match st.revert with
      | some ot =>
        { st with
            type := ot.2, tool := ot.1, revert := none,
            selected := jsDedup [] }
      | none => st
    else st
  { st with ghost := st.ghost ++ (ghostLoop st.selected).1 }

/-! ## Properties of the selection-set helpers -/

theorem jsDedupAux_toFinset {α : Type} [DecidableEq α] :
    ∀ (l seen : List α),
      (jsDedupAux seen l).toFinset = l.toFinset \ seen.toFinset := by
  intro l
  induction l with
  | nil => intro seen; simp [jsDedupAux]
  | cons a rest ih =>
    intro seen
    by_cases ha : a ∈ seen
    · rw [jsDedupAux, if_pos ha, ih]
      ext x
      simp only [List.toFinset_cons, Finset.mem_sdiff, Finset.mem_insert,
        List.mem_toFinset]
      constructor
      · rintro ⟨hx, hns⟩; exact ⟨Or.inr hx, hns⟩
      · rintro ⟨hx | hx, hns⟩
        · exact absurd (by rw [hx]; exact ha) hns
        · exact ⟨hx, hns⟩
    · rw [jsDedupAux, if_neg ha]
      ext x
      simp only [List.toFinset_cons, Finset.mem_sdiff, Finset.mem_insert,
        List.mem_toFinset, ih]
      constructor
      · rintro (hx | ⟨hx, hns⟩)
        · refine ⟨Or.inl hx, ?_⟩
          rw [hx]; exact ha
        · exact ⟨Or.inr hx, fun hn => hns (Or.inr hn)⟩
      · rintro ⟨hx | hx, hns⟩
        · exact Or.inl hx
        · by_cases hxa : x = a
          · exact Or.inl hxa
          · exact Or.inr ⟨hx, fun hn => hn.elim hxa hns⟩

theorem jsDedup_toFinset {α : Type} [DecidableEq α] (l : List α) :
    (jsDedup l).toFinset = l.toFinset := by
  rw [jsDedup, jsDedupAux_toFinset]
  simp

theorem jsDedupAux_nodup {α : Type} [DecidableEq α] :
    ∀ (l seen : List α),
      (jsDedupAux seen l).Nodup ∧ ∀ x ∈ jsDedupAux seen l, x ∉ seen := by
  intro l
  induction l with
  | nil =>
    intro seen
    exact ⟨List.nodup_nil, fun x hx => absurd hx (List.not_mem_nil x)⟩
  | cons a rest ih =>
    intro seen
    by_cases ha : a ∈ seen
    · rw [jsDedupAux, if_pos ha]
      exact ih seen
    · rw [jsDedupAux, if_neg ha]
      obtain ⟨hnd, hout⟩ := ih (a :: seen)
      refine ⟨List.nodup_cons.mpr ⟨fun hmem => ?_, hnd⟩, ?_⟩
      · exact hout a hmem (List.mem_cons_self a seen)
      · intro x hx
        rcases List.mem_cons.mp hx with rfl | hx
        · exact ha
        · exact fun hn => hout x hx (List.mem_cons_of_mem a hn)

theorem jsDedup_nodup {α : Type} [DecidableEq α] (l : List α) :
    (jsDedup l).Nodup :=
  (jsDedupAux_nodup l []).1

/-- The ghost pass writes the saved colors back: the shapes after the
pass are exactly the shapes before it. -/
theorem ghostLoop_restores : ∀ (l : List Obj), (ghostLoop l).2 = l := by
  intro l
  induction l with
  | nil => rfl
  | cons s rest ih =>
    simp only [ghostLoop, ih, List.cons.injEq, and_true]

/-- C8 (amended): `SelectedShapes.ghost` renders every selected shape
with the fixed highlight stroke `"red"` and fill `"rgba(0,0,250,0.2)"`
(not a color computed from the shape's own style), and after the
(total) rendering pass every shape's stored stroke and fill are
unchanged. -/
theorem ghost_fixed_style_and_restores (l : List Obj) :
    (ghostLoop l).2 = l
    ∧ ∀ s ∈ (ghostLoop l).1, s.c = "red" ∧ s.f = "rgba(0,0,250,0.2)" := by
  refine ⟨ghostLoop_restores l, ?_⟩
  induction l with
  | nil => intro s hs; exact absurd hs (List.not_mem_nil s)
  | cons t rest ih =>
    intro s hs
    rcases List.mem_cons.mp hs with rfl | hs
    · exact ⟨rfl, rfl⟩
    · exact ih s hs

/-- A concrete selected shape whose stored stroke color is css `red`,
i.e. rgb (255, 0, 0). -/
def ghostEx : Obj :=
  ⟨0, 1, 0, 0, "red", "blue", 0, .circle, ⟨-1, -1, 2, 2⟩, ⟨0, 0⟩, 1⟩

/-- C8 (counterexample): the ghost pass renders the shape with the fixed
literals `"red"` / `"rgba(0,0,250,0.2)"`, while the hue-rotated
complement (+180° in HSV, 0.5 alpha) of the stored stroke rgb(255,0,0)
is rgb(0,255,255) at alpha ½ — neither the rendered stroke
(rgb(255,0,0), opaque) nor the rendered fill (rgb(0,0,250), alpha 0.2)
equals it. -/
theorem ghost_not_contrast_counterexample :
    (ghostLoop [ghostEx]).1 = [{ ghostEx with c := "red", f := "rgba(0,0,250,0.2)" }]
    ∧ contrastOf ⟨255, 0, 0⟩ = (⟨0, 255, 255⟩, 1 / 2)
    ∧ ((⟨255, 0, 0⟩ : RGB), (1 : ℚ)) ≠ ((⟨0, 255, 255⟩ : RGB), (1 / 2 : ℚ))
    ∧ ((⟨0, 0, 250⟩ : RGB), (2 / 10 : ℚ)) ≠ ((⟨0, 255, 255⟩ : RGB), (1 / 2 : ℚ)) := by
  refine ⟨rfl, ?_, ?_, ?_⟩
  · norm_num [contrastOf, rgb2hsv, hsvOfUnit, hsv2rgb, hsvChan, jsRem, jsTrunc]
  · intro h
    have := congrArg (fun q => q.1.r) h
    norm_num at this
  · intro h
    have := congrArg (fun q => q.1.g) h
    norm_num at this

/-! ## C4: the duplicate command -/

/-- C4 (amended): the duplicate command appends one clone per selected
shape to the drawing list and replaces the selection with exactly those
clones; the clones are shallow field copies, so each clone's `id` equals
its original's `id` (in JavaScript the nested `points`/`bb` objects are
also shared by reference). -/
theorem duplicate_appends_shallow_clones (st : St) :
    (duplicateD st).drawings = st.drawings ++ (duplicateD st).selected
    ∧ (duplicateD st).drawings.length
        = st.drawings.length + st.selected.length
    ∧ (duplicateD st).selected.length = st.selected.length
    ∧ (duplicateD st).selected.map Obj.id = st.selected.map Obj.id := by
  refine ⟨rfl, ?_, ?_, ?_⟩
  · simp [duplicateD, cloneList]
  · simp [duplicateD, cloneList]
  · simp only [duplicateD, cloneList, List.map_map]
    have : ∀ (l : List Obj) (base : ℕ),
        (l.enum.map fun is => ({ is.2 with ref := base + is.1 } : Obj).id)
          = l.map Obj.id := by
      intro l base
      have h2 : (l.enum.map fun is => ({ is.2 with ref := base + is.1 } : Obj).id)
          = l.enum.map (fun is => Obj.id is.2) := by
        apply List.map_congr_left
        intro is _
        rfl
      rw [h2]
      rw [show (fun is : ℕ × Obj => Obj.id is.2) = Obj.id ∘ Prod.snd from rfl,
        ← List.map_map, List.enum_map_snd]
    exact this st.selected st.nextRef

/-- A one-shape state about to be duplicated. -/
def dupEx : Obj :=
  ⟨0, 1, 0, 0, "blue", "transparent", 0, .circle, ⟨-1, -1, 2, 2⟩, ⟨0, 0⟩, 1⟩

/-- The state holding `dupEx`, selected. -/
def dupSt : St :=
  ⟨"select", "pointer", none, none, "blue", "transparent", "", false,
    ⟨0, 0⟩, none, [dupEx], [dupEx], [], false, 2, 1⟩

/-- C4 (counterexample): duplicating a selection of one shape with id 1
produces a drawing list whose ids are `[1, 1]` — the clone's id is not
distinct from the existing shape's id. -/
theorem duplicate_shares_ids_counterexample :
    (duplicateD dupSt).drawings.map Obj.id = [1, 1]
    ∧ ¬ ((duplicateD dupSt).drawings.map Obj.id).Nodup := by
  have h1 : (duplicateD dupSt).drawings.map Obj.id = [1, 1] := by
    simp [duplicateD, cloneList, dupSt, dupEx, List.enum]
  exact ⟨h1, by rw [h1]; decide⟩

/-! ## C9: transform pointer-up resets the tool to select -/

/-- C9: every non-aborted pointer-up ending a move, rotate or scale
gesture (pointer type, no revert target recorded — the toolbar
invocation path) leaves the active tool `"select"`, whether or not the
drag reached the 1-pixel threshold. -/
theorem transform_pointerup_resets_tool (env : JsEnv) (keys : List String)
    (e : Pt) (st : St) (p : Pt) (hstart : st.start = some p)
    (habort : st.abort = false) (htype : st.type = "pointer")
    (htool : st.tool = "move" ∨ st.tool = "rotate" ∨ st.tool = "scale")
    (hrev : st.revert = none) :
    (endAction env keys e st).tool = "select" := by
  rcases htool with htool | htool | htool <;>
  · by_cases hth : 1 < vlen env (e.sub p) <;>
      simp [endAction, hstart, habort, htype, htool, hrev, hth]

/-- The identity interpretation of the abstract numeric environment,
used to instantiate witnesses (all theorems hold for every
interpretation). -/
def envId : JsEnv := ⟨id, id, id, id, id⟩

/-- A state in a move gesture with a zero-length (below-threshold) drag
and no revert target. -/
def c9St : St :=
  ⟨"move", "pointer", some ⟨0, 0⟩, none, "blue", "transparent", "", false,
    ⟨0, 0⟩, none, [], [], [], true, 1, 0⟩

/-- Witness for C9: a below-threshold move pointer-up still resets the
tool to `"select"`. -/
theorem transform_pointerup_resets_tool_witness :
    (endAction envId [] ⟨0, 0⟩ c9St).tool = "select" :=
  transform_pointerup_resets_tool envId [] ⟨0, 0⟩ c9St ⟨0, 0⟩ rfl rfl rfl
    (Or.inl rfl) rfl

/-! ## C1: the selection combination laws -/

/-- C1: a completed select pointer-up with prior selection `B` and
computed hit set `H` yields, as an identity-based set, `B ∪ H` when
Shift is held, `B \ H` when Control (and not Shift) is held, and exactly
`H` with no modifier; the resulting selection list is deduplicated.
(When both Shift and Control are held the source's Shift branch wins.) -/
theorem select_pointerup_combines (env : JsEnv) (keys : List String)
    (e : Pt) (st : St) (p : Pt) (hstart : st.start = some p)
    (habort : st.abort = false) (htype : st.type = "pointer")
    (htool : st.tool = "select") (hrev : st.revert = none) :
    ((endAction env keys e st).selected.toFinset =
      if "Shift" ∈ keys then
        st.selected.toFinset ∪ (hitSet env p e st.drawings).toFinset
      else if "Control" ∈ keys then
        st.selected.toFinset \ (hitSet env p e st.drawings).toFinset
      else (hitSet env p e st.drawings).toFinset)
    ∧ (endAction env keys e st).selected.Nodup := by
  have hsel : (endAction env keys e st).selected =
      jsDedup (if "Shift" ∈ keys then st.selected ++ hitSet env p e st.drawings
        else if "Control" ∈ keys then
          st.selected.filter (fun s => !(decide (s ∈ hitSet env p e st.drawings)))
        else hitSet env p e st.drawings) := by
    by_cases hs : "Shift" ∈ keys <;> by_cases hc : "Control" ∈ keys <;>
      simp [endAction, hstart, habort, htype, htool, hrev, hs, hc]
  refine ⟨?_, hsel ▸ jsDedup_nodup _⟩
  rw [hsel, jsDedup_toFinset]
  by_cases hs : "Shift" ∈ keys
  · simp [hs]
  · by_cases hc : "Control" ∈ keys
    · simp only [hs, if_false, hc, if_true, if_neg hs, if_pos hc]
      ext x
      simp only [List.mem_toFinset, List.mem_filter, Finset.mem_sdiff,
        Bool.not_eq_true', decide_eq_false_iff_not]
    · simp [hs, hc]

/-- A drawing positioned at the click point, for the C1 witness. -/
def c1Obj : Obj :=
  ⟨0, 1, 0, 0, "blue", "transparent", 0, .circle, ⟨-1, -1, 2, 2⟩, ⟨0, 0⟩, 1⟩

/-- A steady state with one drawing and an empty selection, select tool
armed and a gesture start recorded. -/
def c1St : St :=
  ⟨"select", "pointer", some ⟨0, 0⟩, none, "blue", "transparent", "", false,
    ⟨0, 0⟩, none, [c1Obj], [], [], false, 2, 1⟩

/-- Witness for C1: an unmodified select replaces the selection with
exactly the hit set. -/
theorem select_pointerup_combines_witness :
    ((endAction envId [] ⟨0, 0⟩ c1St).selected.toFinset =
      if "Shift" ∈ ([] : List String) then
        c1St.selected.toFinset ∪ (hitSet envId ⟨0, 0⟩ ⟨0, 0⟩ c1St.drawings).toFinset
      else if "Control" ∈ ([] : List String) then
        c1St.selected.toFinset \ (hitSet envId ⟨0, 0⟩ ⟨0, 0⟩ c1St.drawings).toFinset
      else (hitSet envId ⟨0, 0⟩ ⟨0, 0⟩ c1St.drawings).toFinset)
    ∧ (endAction envId [] ⟨0, 0⟩ c1St).selected.Nodup :=
  select_pointerup_combines envId [] ⟨0, 0⟩ c1St ⟨0, 0⟩ rfl rfl rfl rfl rfl

/-! ## C5: Escape aborts the gesture without committing -/

/-- C5: starting a transform gesture from a steady state (no pending
revert target), pressing the key action (`g`/`r`/`s` → `startKeyAction`),
putting the pointer down, then pressing Escape mid-gesture: Escape sets
the abort flag and clears the ghost layer, and the subsequent pointer-up
commits nothing — the drawing list and the selection set are exactly as
they were before the gesture began (the one-shot auto-picked selection,
when there was one, is dropped again by the revert pathway). -/
theorem escape_aborts_gesture (env : JsEnv) (keys : List String) (e : Pt)
    (action : String) (p : Pt) (st0 : St) (hrev : st0.revert = none)
    (haction : action = "move" ∨ action = "rotate" ∨ action = "scale") :
    ((escapeKey (startAction p (startKeyAction action st0))).ghost = [])
    ∧ ((escapeKey (startAction p (startKeyAction action st0))).abort = true)
    ∧ ((endAction env keys e
        (escapeKey (startAction p (startKeyAction action st0)))).drawings
      = st0.drawings)
    ∧ ((endAction env keys e
        (escapeKey (startAction p (startKeyAction action st0)))).selected
      = st0.selected) := by
  have hact_ne : action ≠ "pgon" := by
    rcases haction with h | h | h <;> · rw [h]; decide
  refine ⟨rfl, rfl, ?_, ?_⟩ <;>
  · unfold startKeyAction
    by_cases hsel : st0.selected.length = 0
    · rcases hlast : (st0.drawings.filter (fun s => s.contains st0.mouse)).getLast?
        with _ | sPick
      · -- no shape under the pointer: nothing changed by the key action
        by_cases hpg : st0.tool = "pgon" <;>
          simp [hsel, hlast, startAction, escapeKey, endAction, hrev, hpg,
            List.length_eq_zero.mp hsel]
      · -- auto-picked one shape, revert recorded; Escape + pointer-up drop it
        simp [hsel, hlast, startAction, escapeKey, endAction, moveState, hrev,
          hact_ne, jsDedup, jsDedupAux, List.length_eq_zero.mp hsel]
    · -- existing selection: untouched throughout
      simp [hsel, startAction, escapeKey, endAction, moveState, hrev, hact_ne]

/-- A steady pre-gesture state for the C5 witness. -/
def c5St : St :=
  ⟨"select", "pointer", none, none, "blue", "transparent", "", false,
    ⟨0, 0⟩, none, [], [], [], false, 1, 0⟩

/-- Witness for C5 at a concrete aborted move gesture. -/
theorem escape_aborts_gesture_witness :
    ((escapeKey (startAction ⟨0, 0⟩ (startKeyAction "move" c5St))).ghost = [])
    ∧ ((escapeKey (startAction ⟨0, 0⟩ (startKeyAction "move" c5St))).abort = true)
    ∧ ((endAction envId [] ⟨1, 1⟩
        (escapeKey (startAction ⟨0, 0⟩ (startKeyAction "move" c5St)))).drawings
      = c5St.drawings)
    ∧ ((endAction envId [] ⟨1, 1⟩
        (escapeKey (startAction ⟨0, 0⟩ (startKeyAction "move" c5St)))).selected
      = c5St.selected) :=
  escape_aborts_gesture envId [] ⟨1, 1⟩ "move" ⟨0, 0⟩ c5St rfl (Or.inl rfl)

end JsPaint
